import Mathlib

/-!
# Verification of the tree-sitter-reduce core against its specification

This file gives a shallow embedding, in Lean 4, of the parts of the
`tree-sitter-reduce` crate that the specification's claims are about:

* the worker job loop (`src/workers.rs`, `WorkerThread::run_job`),
* the `DichotomyPass` adapter (`src/passes/dichotomy.rs`),
* the `RemoveLines` pass (`src/passes/generic/remove_lines.rs`),
* the `TreeSitterReplace` pass (`src/passes/generic/tree_sitter_replace.rs`),
* the per-file statistics of the runner (`src/runner.rs`, `FileInfo` and
  `Runner::handle_result`).

External collaborators (the filesystem, the tree-sitter parser, the user
test executable, the `rand` generator and UTF-8 decoding) are modelled as
parameters: files are lists of bytes or characters, the parser output is an
abstract syntax tree with byte ranges, the test is a `TestResult` value, and
the random generator is an abstract stream of natural numbers from which
`gen_range lo hi` draws `lo + raw % (hi - lo)` (so every sequence of
in-range draws of the real generator is represented by some stream).
Rust panics (`assert!`, `unwrap`) and `anyhow` errors are modelled with
`Except String` or `Option`: a panicking execution produces no value.
-/

namespace TreeSitterReduce

/-- Outcome of a job, from `src/job.rs` (`enum JobStatus`). -/
inductive JobStatus : Type where
  | reduced (desc : String)
  | didNotReduce
  | passFailed (desc : String)
  | interrupted
deriving DecidableEq, Repr

/-- `JobStatus::did_reduce` from `src/job.rs`. -/
def JobStatus.didReduce : JobStatus → Bool
  | .reduced _ => true
  | _ => false

/-- Result of one invocation of the user interestingness test
(`enum TestResult` of the crate). -/
inductive TestResult : Type where
  | interesting
  | notInteresting
  | interrupted
deriving DecidableEq, Repr

/-- Abstract random number generator: a stream of raw natural numbers and a
cursor. `StdRng::seed_from_u64` of the code corresponds to choosing a
stream; each draw consumes one stream element. -/
structure Rng : Type where
  stream : Nat → Nat
  idx : Nat

/-- Draw one raw value and advance the generator. -/
def Rng.next (r : Rng) : Nat × Rng :=
  (r.stream r.idx, ⟨r.stream, r.idx + 1⟩)

/-- `rng.gen_range(lo..hi)` of the `rand` crate: a value in `[lo, hi)`
(for `lo < hi`, which holds at every call site modelled here). -/
def Rng.genRange (r : Rng) (lo hi : Nat) : Nat × Rng :=
  let (x, r') := r.next
  (lo + x % (hi - lo), r')

/-- `rng.gen::<bool>()` of the `rand` crate. -/
def Rng.genBool (r : Rng) : Bool × Rng :=
  let (x, r') := r.next
  (x % 2 = 1, r')

theorem Rng.genRange_fst_le {r : Rng} {lo hi : Nat} : lo ≤ (r.genRange lo hi).1 :=
  Nat.le_add_right _ _

theorem Rng.genRange_fst_lt {r : Rng} {lo hi : Nat} (h : lo < hi) :
    (r.genRange lo hi).1 < hi := by
  have hmod : r.stream r.idx % (hi - lo) < hi - lo :=
    Nat.mod_lt _ (by omega)
  simp only [Rng.genRange, Rng.next]
  omega

/-! ## Worker job execution (`src/workers.rs`, `WorkerThread::run_job`)

The worker's sandbox is modelled as a map from relative paths to file
contents (`work`), plus the backup slot `tmpdir/<job.path>` explicitly
returned so that its final state can be observed.  The pass is an arbitrary
function that rewrites the whole file map (the real pass gets the workdir
path) and returns an `anyhow::Result<JobStatus>`. -/

/-- `WorkerThread::run_job` from `src/workers.rs` (lines 166-195):
copy `workdir/job.path` to `tmpdir/job.path`; run the pass; if the returned
status is not `Reduced`, copy the backup back; remove the backup file.
The returned triple is (status, final workdir contents, final backup slot).
Pass errors propagate (the `?` operator) without restoration. -/
def runJob {P : Type} [DecidableEq P]
    (pass : (P → List Nat) → (P → List Nat) × Except String JobStatus)
    (path : P) (work : P → List Nat) :
    Except String (JobStatus × (P → List Nat) × Option (List Nat)) :=
  let backup := work path
  let (work', passRes) := pass work
  match passRes with
  | .error e => .error e
  | .ok status =>
    let restored := if status.didReduce then work' else Function.update work' path backup
    .ok (status, restored, none)

/-! ## DichotomyPass adapter (`src/passes/dichotomy.rs`, `impl Pass for T`)

`list_attempts` is modelled by its result (`la`), and `attempt_reduce` by a
function `f` from the attempt number and the attempt to the returned
status.  The adapter's control flow only depends on these. -/

/-- The `for (attempt_number, attempt) in attempts.into_iter().enumerate()`
loop of `reduce` in `src/passes/dichotomy.rs`: run attempts in order,
return the first result that is not `DidNotReduce`; errors propagate. -/
def dichotomyLoop {A : Type} (f : Nat → A → Except String JobStatus) :
    Nat → List A → Except String JobStatus
  | _, [] => .ok .didNotReduce
  | i, a :: rest =>
    match f i a with
    | .error e => .error e
    | .ok .didNotReduce => dichotomyLoop f (i + 1) rest
    | .ok res => .ok res

/-- `reduce` of `impl<T> Pass for T where T: DichotomyPass` in
`src/passes/dichotomy.rs` (lines 57-93). -/
def dichotomyReduce {P A : Type}
    (la : Except String (Option (P × List A)))
    (f : Nat → A → Except String JobStatus) : Except String JobStatus :=
  match la with
  | .error e => .error e
  | .ok none => .ok (.passFailed "Dichotomy pass failed to find replacements")
  | .ok (some (_, attempts)) =>
    if attempts.isEmpty then .ok (.passFailed "No option to choose from")
    else dichotomyLoop f 0 attempts

/-- Modelled from the spec (for the refinement claim about the adapter):
"`None` means the pass does not apply (caller returns PassFailed). The
adapter then iterates attempts and returns the first non-DidNotReduce
result; if all attempts produce DidNotReduce the adapter returns
DidNotReduce."  This reading has no special case for an empty attempt
sequence. -/
def dichotomySpecReduce {P A : Type}
    (la : Except String (Option (P × List A)))
    (f : Nat → A → Except String JobStatus) : Except String JobStatus :=
  match la with
  | .error e => .error e
  | .ok none => .ok (.passFailed "Dichotomy pass failed to find replacements")
  | .ok (some (_, attempts)) => dichotomyLoop f 0 attempts

/-! ## Per-file statistics (`src/runner.rs`, `FileInfo` and `handle_result`)

`recent_success_rate` is a `u8`; the code computes in `u32` and converts
back with `u8::try_from(...).unwrap()`.  The value is modelled as a `Nat`
and the fallible conversion as an `Option` that is `none` exactly when the
`unwrap` would panic (value above 255). -/

/-- `FileInfo::new` from `src/runner.rs`: `u8::MAX / 2`. -/
def fileInfoNew : Nat := 255 / 2

/-- `FileInfo::record_success` from `src/runner.rs`:
`u8::try_from((rate as u32 * 9 + u8::MAX as u32) / 10).unwrap()`. -/
def recordSuccess (r : Nat) : Option Nat :=
  let v := (r * 9 + 255) / 10
  if v ≤ 255 then some v else none

/-- `FileInfo::record_fail` from `src/runner.rs`:
`u8::try_from(rate as u32 * 9 / 10).unwrap()`. -/
def recordFail (r : Nat) : Option Nat :=
  let v := r * 9 / 10
  if v ≤ 255 then some v else none

theorem recordSuccess_eq {r : Nat} (hr : r ≤ 255) :
    recordSuccess r = some ((r * 9 + 255) / 10) := by
  simp only [recordSuccess]
  rw [if_pos (by omega)]

theorem recordFail_eq {r : Nat} (hr : r ≤ 255) :
    recordFail r = some (r * 9 / 10) := by
  simp only [recordFail]
  rw [if_pos (by omega)]

/-- One success/failure event applied to a file's rate. -/
inductive EmaEvent : Type where
  | success
  | fail
deriving DecidableEq, Repr

/-- Apply a sequence of `record_success` / `record_fail` calls to a rate. -/
def applyEvents : List EmaEvent → Nat → Option Nat
  | [], r => some r
  | .success :: evs, r => (recordSuccess r).bind (applyEvents evs)
  | .fail :: evs, r => (recordFail r).bind (applyEvents evs)

/-- The effect of `Runner::handle_result` (`src/runner.rs`, lines 243-262)
on the per-file statistics map.  The map is `files : P → Option Nat`
(`None` = path absent, in which case `self.files.get_mut(&job.path).unwrap()`
panics).  `Reduced` records a success for the job's file, `DidNotReduce` a
failure, `PassFailed` touches nothing, `Interrupted` panics.  The directory
promotion performed for `Reduced` (`handle_reduction`) does not touch the
`files` map and is outside this model. -/
def handleResultFiles {P : Type} [DecidableEq P]
    (path : P) (res : JobStatus) (files : P → Option Nat) :
    Option (P → Option Nat) :=
  match res with
  | .reduced _ =>
    match files path with
    | none => none
    | some r => (recordSuccess r).map fun v => Function.update files path (some v)
  | .didNotReduce =>
    match files path with
    | none => none
    | some r => (recordFail r).map fun v => Function.update files path (some v)
  | .passFailed _ => some files
  | .interrupted => none

/-! ## RemoveLines (`src/passes/generic/remove_lines.rs`)

File contents are lists of characters; `str::lines` of Rust is embedded as
`rustLines` (split at `'\n'`, the final field dropped when empty, each line
stripped of a trailing `'\r'`).  UTF-8 decoding (`String::from_utf8`) is an
external collaborator: `list_attempts` takes the decode result as an
`Option (List Char)`. -/

/-- A half-open range of line numbers, `Range<usize>` of the code. -/
structure NatRange : Type where
  start : Nat
  stop : Nat
deriving DecidableEq, Repr

/-- Split a character list at every `'\n'` (Rust `str::split('\n')`). -/
def splitNl : List Char → List (List Char)
  | [] => [[]]
  | c :: rest =>
    if c = '\n' then [] :: splitNl rest
    else
      match splitNl rest with
      | [] => [[c]]
      | l :: ls => (c :: l) :: ls

/-- Strip one trailing carriage return, as `str::lines` does on every line
that ended with `"\r\n"`. -/
def stripCr (l : List Char) : List Char :=
  if l.getLast? = some '\r' then l.dropLast else l

/-- Rust `str::lines`: split at `'\n'`; every field before a `'\n'` has one
trailing `'\r'` stripped; the final field (after the last `'\n'`) is kept
as-is when nonempty and dropped when empty (so a trailing newline adds no
line and the empty string has no lines). -/
def rustLines (s : List Char) : List (List Char) :=
  let parts := splitNl s
  let withNl := parts.dropLast.map stripCr
  match parts.getLast? with
  | some [] => withNl
  | some last => withNl ++ [last]
  | none => withNl

/-- The `while len < num_lines` loop of `RemoveLines::list_attempts`
(`src/passes/generic/remove_lines.rs`, lines 42-46): push the current range
to the front of the accumulator, then shift `start` down by
`rng.gen_range(0..len)` (saturating) and grow `len` by
`rng.gen_range(1..2*len)`. -/
def rlLoop (rng : Rng) (numLines startAt len : Nat) (acc : List NatRange) :
    List NatRange :=
  if len < numLines then
    let d1 := (rng.genRange 0 len).1
    let rng1 := (rng.genRange 0 len).2
    let d2 := (rng1.genRange 1 (2 * len)).1
    let rng2 := (rng1.genRange 1 (2 * len)).2
    rlLoop rng2 numLines (startAt - d1) (len + d2) (⟨startAt, startAt + len⟩ :: acc)
  else acc
termination_by numLines - len
decreasing_by
  have h1 : 1 ≤ ((rng.genRange 0 len).2.genRange 1 (2 * len)).1 := Rng.genRange_fst_le
  omega

/-- `RemoveLines::list_attempts` (`src/passes/generic/remove_lines.rs`,
lines 20-49).  `decoded` is the result of `String::from_utf8` on the file's
bytes (`none` = invalid UTF-8).  Returns the parsed contents and the
attempt deque (front first), or `none` (Rust `Ok(None)`). -/
def removeLinesListAttempts (decoded : Option (List Char)) (rng : Rng) :
    Option (List Char × List NatRange) :=
  match decoded with
  | none => none
  | some fileContents =>
    let numLines := (rustLines fileContents).length
    if numLines = 0 then none
    else
      let (startAt, rng1) := rng.genRange 0 numLines
      some (fileContents, ⟨0, numLines⟩ :: rlLoop rng1 numLines startAt 1 [])

/-- Modelled from the spec (for the refinement claim about
`RemoveLines::list_attempts`): "start = rng.range(0, N), len = 1; while
len < N, push start..start+len, then start ← saturating_sub(start,
rng.range(0, len)) and len ← len + rng.range(1, 2*len)".  Ranges are kept
in push order. -/
def rlSpecLoop (rng : Rng) (numLines startAt len : Nat) : List NatRange :=
  if len < numLines then
    let d1 := (rng.genRange 0 len).1
    let rng1 := (rng.genRange 0 len).2
    let d2 := (rng1.genRange 1 (2 * len)).1
    let rng2 := (rng1.genRange 1 (2 * len)).2
    ⟨startAt, startAt + len⟩ :: rlSpecLoop rng2 numLines (startAt - d1) (len + d2)
  else []
termination_by numLines - len
decreasing_by
  have h1 : 1 ≤ ((rng.genRange 0 len).2.genRange 1 (2 * len)).1 := Rng.genRange_fst_le
  omega

/-- Modelled from the spec: the full attempt sequence of the spec's
`RemoveLines` algorithm — the pushed ranges, largest (latest pushed) first,
with the whole-file range `0..N` prepended; `None` exactly when the file is
not valid text or has no lines. -/
def removeLinesSpecAttempts (decoded : Option (List Char)) (rng : Rng) :
    Option (List Char × List NatRange) :=
  match decoded with
  | none => none
  | some fileContents =>
    let numLines := (rustLines fileContents).length
    if numLines = 0 then none
    else
      let (startAt, rng1) := rng.genRange 0 numLines
      some (fileContents, ⟨0, numLines⟩ :: (rlSpecLoop rng1 numLines startAt 1).reverse)

/-- The file contents written by `RemoveLines::attempt_reduce`
(`src/passes/generic/remove_lines.rs`, lines 63-69): iterate over
`file_contents.lines().enumerate()` and keep (with a `'\n'` appended) every
line whose 0-based index is not contained in the attempt range. -/
def removeLinesNewData (fileContents : List Char) (attempt : NatRange) :
    List Char :=
  (rustLines fileContents).enum.foldl
    (fun acc p =>
      if attempt.start ≤ p.1 ∧ p.1 < attempt.stop then acc
      else acc ++ p.2 ++ ['\n'])
    []

/-- `RemoveLines::attempt_reduce` (`src/passes/generic/remove_lines.rs`,
lines 51-83): write the new data, run the test once (its verdict is the
`testResult` parameter), and map the `TestResult` to a `JobStatus`.
Returns the written contents and the status. -/
def removeLinesAttemptReduce (fileContents : List Char) (attempt : NatRange)
    (testResult : TestResult) : List Char × JobStatus :=
  (removeLinesNewData fileContents attempt,
    match testResult with
    | .interesting => .reduced "Remove lines"
    | .notInteresting => .didNotReduce
    | .interrupted => .interrupted)

/-- Modelled from the spec (for the counterexample about
`RemoveLines::attempt_reduce`): "writes a new file omitting those lines
(1-indexed logical lines separated by `\n`)" — keep every line whose
1-based number is outside the attempt range, appending `'\n'` to each. -/
def removeLinesSpecNewData1Indexed (fileContents : List Char)
    (attempt : NatRange) : List Char :=
  (((rustLines fileContents).enum.filter
      (fun p => ¬(attempt.start ≤ p.1 + 1 ∧ p.1 + 1 < attempt.stop))).map
    (fun p => p.2 ++ ['\n'])).flatten

/-- The number of lines a range removes from a file of `numLines` lines:
only indices actually present in the file count. -/
def linesRemoved (numLines : Nat) (r : NatRange) : Nat :=
  min r.stop numLines - r.start

/-! ## TreeSitterReplace (`src/passes/generic/tree_sitter_replace.rs`)

The tree-sitter parser is an external collaborator; its output is modelled
as an abstract syntax tree `STree` of nodes with byte ranges.  File
contents are lists of bytes (`Nat` below 256 in practice; nothing here
depends on the bound). -/

/-- An abstract tree-sitter syntax tree node: byte range plus children. -/
inductive STree : Type where
  | mk (start stop : Nat) (children : List STree)

/-- Start of the node's byte range (`node.byte_range().start`). -/
def STree.start : STree → Nat
  | .mk s _ _ => s

/-- End of the node's byte range (`node.byte_range().end`). -/
def STree.stop : STree → Nat
  | .mk _ e _ => e

/-- The node's child list (what the tree-sitter cursor iterates). -/
def STree.children : STree → List STree
  | .mk _ _ cs => cs

mutual

/-- Size measure for `STree`, used for termination. -/
def STree.size : STree → Nat
  | .mk _ _ cs => 1 + STree.sizeList cs

/-- Size measure for lists of `STree`. -/
def STree.sizeList : List STree → Nat
  | [] => 0
  | t :: rest => 1 + STree.size t + STree.sizeList rest

end

theorem STree.sizeList_lt_size (t : STree) :
    STree.sizeList t.children < STree.size t := by
  cases t with
  | mk s e cs => simp [STree.size, STree.children]

/-- `&input[node.byte_range()]`: the source bytes covered by a node. -/
def nodeBytes (input : List Nat) (t : STree) : List Nat :=
  (input.drop t.start).take (t.stop - t.start)

/-- `u8::is_ascii_whitespace`: space, tab, newline, form feed, carriage
return. -/
def isAsciiWhitespaceByte (b : Nat) : Bool :=
  b = 0x20 || b = 0x09 || b = 0x0A || b = 0x0C || b = 0x0D

/-- `hay.windows(needle.len()).any(|w| w == needle)` from the interesting
check in `collect_all_interesting`.  (The code never evaluates this with an
empty `needle`: empty node bytes are all-whitespace, and with
`try_match_all_nodes` set the `||` short-circuits.) -/
def windowsContains (hay needle : List Nat) : Bool :=
  (List.range (hay.length + 1 - needle.length)).any
    fun i => ((hay.drop i).take needle.length) == needle

/-- A node of the `InterestingNodeList`
(`struct InterestingNode` in `src/passes/generic/tree_sitter_replace.rs`):
byte range, replacement bytes, and the nested list of interesting
descendants. -/
inductive INode : Type where
  | mk (start stop : Nat) (replaceWith : List Nat) (children : List INode)

/-- `bytes.start` of an interesting node. -/
def INode.start : INode → Nat
  | .mk s _ _ _ => s

/-- `bytes.end` of an interesting node. -/
def INode.stop : INode → Nat
  | .mk _ e _ _ => e

/-- `replace_with` of an interesting node. -/
def INode.replaceWith : INode → List Nat
  | .mk _ _ r _ => r

/-- The nested `children` list of an interesting node. -/
def INode.children : INode → List INode
  | .mk _ _ _ cs => cs

mutual

/-- Size measure for `INode`, used for termination. -/
def INode.size : INode → Nat
  | .mk _ _ _ cs => 1 + INode.sizeList cs

/-- Size measure for `InterestingNodeList`s. -/
def INode.sizeList : List INode → Nat
  | [] => 0
  | n :: rest => 1 + INode.size n + INode.sizeList rest

end

theorem INode.sizeList_append (a b : List INode) :
    INode.sizeList (a ++ b) = INode.sizeList a + INode.sizeList b := by
  induction a with
  | nil => simp [INode.sizeList]
  | cons n rest ih => simp [INode.sizeList, ih]; omega

theorem INode.sizeList_reverse (l : List INode) :
    INode.sizeList l.reverse = INode.sizeList l := by
  induction l with
  | nil => rfl
  | cons n rest ih =>
    simp [List.reverse_cons, INode.sizeList_append, INode.sizeList, ih]
    omega

theorem INode.children_sizeList_lt (n : INode) (rest : List INode) :
    INode.sizeList n.children < INode.sizeList (n :: rest) := by
  cases n with
  | mk s e r cs => simp [INode.sizeList, INode.size, INode.children]; omega

/-- `InterestingNodeList::count_bytes`: total length of the byte ranges of
the top-level entries. -/
def countBytes (l : List INode) : Nat :=
  (l.map fun n => n.stop - n.start).sum

/-- The running check of `InterestingNodeList::check_sorted`: `cur` is the
end of the previous range; fails when a range starts before `cur` or is
reversed. -/
def sortedFrom (cur : Nat) : List INode → Bool
  | [] => true
  | n :: rest => decide (cur ≤ n.start) && decide (n.start ≤ n.stop) && sortedFrom n.stop rest

/-- `InterestingNodeList::check_sorted`, starting from `cur = 0`. -/
def checkSorted (l : List INode) : Bool :=
  sortedFrom 0 l

mutual

/-- Recursive well-formedness of an interesting node: its range is a range,
every child range lies within it, and the child list is well-formed. -/
def INode.wf : INode → Bool
  | .mk s e _ cs =>
    decide (s ≤ e) &&
    cs.all (fun c => decide (s ≤ c.start) && decide (c.stop ≤ e)) &&
    sortedFrom 0 cs && INode.wfList cs

/-- All nodes of a list are recursively well-formed. -/
def INode.wfList : List INode → Bool
  | [] => true
  | n :: rest => INode.wf n && INode.wfList rest

end

/-- Recursive well-formedness of an `InterestingNodeList`: in every nested
list the byte ranges are sorted and non-overlapping (in the sense of
`check_sorted`) and each child's range lies within its parent's range. -/
def listWF (l : List INode) : Bool :=
  sortedFrom 0 l && INode.wfList l

/-- Every top-level range of the list ends at or before `hi`. -/
def allUpTo (hi : Nat) (l : List INode) : Bool :=
  l.all fun n => decide (n.stop ≤ hi)

/-- Every top-level range of the list starts at or after `lo`. -/
def allDownTo (lo : Nat) (l : List INode) : Bool :=
  l.all fun n => decide (lo ≤ n.start)

/-- The sortedness check read on a reversed list: ranges are descending and
non-overlapping below `cur`. -/
def sortedDownFrom (cur : Nat) : List INode → Bool
  | [] => true
  | n :: rest =>
    decide (n.stop ≤ cur) && decide (n.start ≤ n.stop) && sortedDownFrom n.start rest

/-- An upper bound on all range ends of a list. -/
def maxStop (l : List INode) : Nat :=
  l.foldr (fun n m => max n.stop m) 0

/-- `InterestingNodeList::try_remove_front`
(`src/passes/generic/tree_sitter_replace.rs`, lines 99-130): peel whole
entries from the front while they fit in the remaining quota; then open the
next entry, account for its own bytes (range minus interesting children),
recurse into its children, and splice the remaining children in front of
the rest.  Returns (bytes removed, remaining list). -/
def tryRemoveFront : List INode → Nat → Nat × List INode
  | [], _ => (0, [])
  | n :: rest, sz =>
    if n.stop - n.start ≤ sz then
      let r := tryRemoveFront rest (sz - (n.stop - n.start))
      ((n.stop - n.start) + r.1, r.2)
    else
      let r := tryRemoveFront n.children sz
      (((n.stop - n.start) - countBytes n.children) + r.1, r.2 ++ rest)
termination_by l _ => INode.sizeList l
decreasing_by
  all_goals first
    | exact INode.children_sizeList_lt n rest
    | (simp [INode.sizeList]; omega)
    | simp [INode.sizeList]

/-- Helper for `try_remove_back`: the same peeling, on the reversed list
(so the code's `pop_back` becomes a head match); the result list is also
reversed. -/
def tryRemoveBackRev : List INode → Nat → Nat × List INode
  | [], _ => (0, [])
  | n :: rest, sz =>
    if n.stop - n.start ≤ sz then
      let r := tryRemoveBackRev rest (sz - (n.stop - n.start))
      ((n.stop - n.start) + r.1, r.2)
    else
      let r := tryRemoveBackRev n.children.reverse sz
      (((n.stop - n.start) - countBytes n.children) + r.1, r.2 ++ rest)
termination_by l _ => INode.sizeList l
decreasing_by
  all_goals first
    | (rw [INode.sizeList_reverse]; exact INode.children_sizeList_lt n rest)
    | (simp [INode.sizeList]; omega)
    | simp [INode.sizeList]

/-- `InterestingNodeList::try_remove_back`
(`src/passes/generic/tree_sitter_replace.rs`, lines 132-162): peel whole
entries from the back, open the next entry from the back, recurse into its
children from the back, and append the remaining children after the rest. -/
def tryRemoveBack (l : List INode) (sz : Nat) : Nat × List INode :=
  let r := tryRemoveBackRev l.reverse sz
  (r.1, r.2.reverse)

mutual

/-- One step of `TreeSitterReplace::collect_all_interesting`
(`src/passes/generic/tree_sitter_replace.rs`, lines 172-216) for a single
node: an all-whitespace node (unless `try_match_all_nodes`) just recurses;
a matched node whose bytes are not a window of the replacement (or with
`try_match_all_nodes`) is appended with its own nested children list; any
other node just recurses, its interesting descendants becoming siblings in
the current list. -/
def collectNode (matcher : List Nat → STree → Option (List Nat))
    (tryAll : Bool) (input : List Nat) (t : STree) (acc : List INode) :
    List INode :=
  if !tryAll && (nodeBytes input t).all isAsciiWhitespaceByte then
    collectChildren matcher tryAll input t.children acc
  else
    match matcher input t with
    | some replaceWith =>
      if tryAll || !(windowsContains replaceWith (nodeBytes input t)) then
        acc ++ [INode.mk t.start t.stop replaceWith
          (collectChildren matcher tryAll input t.children [])]
      else collectChildren matcher tryAll input t.children acc
    | none => collectChildren matcher tryAll input t.children acc
termination_by STree.size t
decreasing_by
  all_goals exact STree.sizeList_lt_size t

/-- The sibling loop of `collect_all_interesting`: process the children of
the cursor's node in source order, threading the accumulator. -/
def collectChildren (matcher : List Nat → STree → Option (List Nat))
    (tryAll : Bool) (input : List Nat) (ts : List STree) (acc : List INode) :
    List INode :=
  match ts with
  | [] => acc
  | t :: rest =>
    collectChildren matcher tryAll input rest
      (collectNode matcher tryAll input t acc)
termination_by STree.sizeList ts
decreasing_by
  all_goals first
    | (simp [STree.sizeList]; omega)
    | simp [STree.sizeList]

end

/-- Modelled from the spec: "A node is interesting iff the matcher returned
a replacement AND either `try_match_all_nodes` is set, or the node's source
bytes are neither pure ASCII whitespace nor a substring of the
replacement." -/
def specInterestingNode (matcher : List Nat → STree → Option (List Nat))
    (tryAll : Bool) (input : List Nat) (t : STree) : Bool :=
  match matcher input t with
  | none => false
  | some replaceWith =>
    tryAll ||
      (!((nodeBytes input t).all isAsciiWhitespaceByte) &&
        !(windowsContains replaceWith (nodeBytes input t)))

/-- `InterestingNodeList::into_ranges`: the flat list of
(byte range, replacement) pairs of the top-level entries. -/
def intoRanges (l : List INode) : List ((Nat × Nat) × List Nat) :=
  l.map fun n => ((n.start, n.stop), n.replaceWith)

/-- Bytes covered by a final attempt (sum of its range lengths); the
"amount removed" metric of a `TreeSitterReplace` attempt. -/
def attemptBytes (a : List ((Nat × Nat) × List Nat)) : Nat :=
  (a.map fun p => p.1.2 - p.1.1).sum

/-- The `while aim_at_bytes * 4 / 3 < cur_bytes` loop of
`TreeSitterReplace::list_attempts`
(`src/passes/generic/tree_sitter_replace.rs`, lines 269-290): draw a
quota, remove it from a random end, keep the byte count in `cur`; the
`assert!(actually_removed != 0)` panic is an error, hitting zero bytes
breaks the outer loop (`ok none`).  `tsRemoveStep` is the body of one
iteration up to the removal: draw the quota
`rng.gen_range(((total_to_remove + 1) / 2)..(total_to_remove + 1))`, flip
`rng.gen::<bool>()`, and remove from the chosen end; it returns the bytes
removed, the new attempt and the generator. -/
def tsRemoveStep (rng : Rng) (attempt : List INode) (aimAt cur : Nat) :
    Nat × List INode × Rng :=
  let total := cur - aimAt
  let want := (rng.genRange ((total + 1) / 2) (total + 1)).1
  let rng1 := (rng.genRange ((total + 1) / 2) (total + 1)).2
  let coin := rng1.genBool.1
  let rng2 := rng1.genBool.2
  let rr := if coin then tryRemoveFront attempt want else tryRemoveBack attempt want
  (rr.1, rr.2, rng2)

/-- The inner removal loop itself, iterating `tsRemoveStep` while
`aim_at_bytes * 4 / 3 < cur_bytes` and accumulating `removed_this_round`. -/
def tsInner (rng : Rng) (attempt : List INode) (aimAt cur removedRound : Nat) :
    Except String (Option (List INode × Nat × Nat × Rng)) :=
  if h0 : aimAt * 4 / 3 < cur then
    let removed := (tsRemoveStep rng attempt aimAt cur).1
    if h1 : removed = 0 then
      .error "Tried removing bytes but failed to remove a single one"
    else if h2 : cur - removed = 0 then .ok none
    else
      tsInner (tsRemoveStep rng attempt aimAt cur).2.2
        (tsRemoveStep rng attempt aimAt cur).2.1 aimAt (cur - removed)
        (removedRound + removed)
  else .ok (some (attempt, cur, removedRound, rng))
termination_by cur
decreasing_by omega

/-- The outer dichotomy loop of `TreeSitterReplace::list_attempts`
(`src/passes/generic/tree_sitter_replace.rs`, lines 262-299): halve the
aim; stop at zero; run the inner loop on a clone of the last attempt; check
the `assert_eq!(attempt.count_bytes(), cur_bytes)` cache (an error when it
fails); push the attempt when this round removed something and bytes
remain. -/
def tsOuter (rng : Rng) (attempts : List (List INode)) (aimAt cur : Nat) :
    Except String (List (List INode)) :=
  match attempts.getLast? with
  | none => .error "no attempts to clone"
  | some attempt =>
    if h : aimAt / 2 = 0 then .ok attempts
    else
      match tsInner rng attempt (aimAt / 2) cur 0 with
      | .error e => .error e
      | .ok none => .ok attempts
      | .ok (some (attempt', cur', removedRound, rng')) =>
        if countBytes attempt' = cur' then
          tsOuter rng'
            (if 0 < removedRound ∧ 0 < cur' then attempts ++ [attempt'] else attempts)
            (aimAt / 2) cur'
        else .error "cur_bytes cache diverged from real value"
termination_by aimAt
decreasing_by omega

/-- The attempt selection of `TreeSitterReplace::list_attempts` after
collection (`src/passes/generic/tree_sitter_replace.rs`, lines 253-299):
`ok none` when no byte is covered, otherwise the attempt deque, first entry
the full interesting list. -/
def tsSelect (rng : Rng) (interesting : List INode) :
    Except String (Option (List (List INode))) :=
  if countBytes interesting = 0 then .ok none
  else (tsOuter rng [interesting] (countBytes interesting) (countBytes interesting)).map some

/-- `TreeSitterReplace::list_attempts`
(`src/passes/generic/tree_sitter_replace.rs`, lines 227-305): parse
(`parseResult` is the tree-sitter output, `none` = parse failure =
`Ok(None)`), collect the interesting nodes, select the attempts, convert
each to its flat range list. -/
def tsListAttempts (input : List Nat) (parseResult : Option STree)
    (matcher : List Nat → STree → Option (List Nat)) (tryAll : Bool)
    (rng : Rng) :
    Except String (Option (List Nat × List (List ((Nat × Nat) × List Nat)))) :=
  match parseResult with
  | none => .ok none
  | some tree =>
    let interesting := collectChildren matcher tryAll input tree.children []
    match tsSelect rng interesting with
    | .error e => .error e
    | .ok none => .ok none
    | .ok (some attemptLists) => .ok (some (input, attemptLists.map intoRanges))

/-! ## Claim theorems -/

/-- **C1**: for every job whose `run_job` returns `Ok` with a status other
than `Reduced` (`DidNotReduce`, `PassFailed` or `Interrupted`), the file
`workdir/<job.path>` after the job is byte-identical to its pre-job
contents (restored from the `tmpdir` backup taken before the pass ran),
and the backup slot `tmpdir/<job.path>` is empty when the job ends
successfully. -/
theorem c1_runJob_restores_and_deletes_backup {P : Type} [DecidableEq P]
    (pass : (P → List Nat) → (P → List Nat) × Except String JobStatus)
    (path : P) (work work' : P → List Nat) (status : JobStatus)
    (tmp' : Option (List Nat))
    (h : runJob pass path work = .ok (status, work', tmp'))
    (hnr : ∀ d, status ≠ .reduced d) :
    work' path = work path ∧ tmp' = none := by
  have hdr : status.didReduce = false := by
    cases status with
    | reduced d => exact absurd rfl (hnr d)
    | _ => rfl
  unfold runJob at h
  rcases hpw : pass work with ⟨w2, res⟩
  rw [hpw] at h
  cases res with
  | error e => simp at h
  | ok st =>
    simp only [Except.ok.injEq, Prod.mk.injEq] at h
    obtain ⟨hst, hw, ht⟩ := h
    subst hst
    rw [hdr] at hw
    simp only [if_neg Bool.false_ne_true] at hw
    constructor
    · rw [← hw]
      simp [Function.update]
    · exact ht.symm

theorem c1_witness :
    Function.update (fun _ : Nat => ([] : List Nat)) 0 [7] 0 = [7] ∧
    (none : Option (List Nat)) = none := by
  have h :=
    c1_runJob_restores_and_deletes_backup
      (P := Nat) (fun _ => (fun _ => ([] : List Nat), .ok .didNotReduce))
      0 (fun _ => [7]) (Function.update (fun _ : Nat => ([] : List Nat)) 0 [7])
      .didNotReduce none rfl (by intro d hd; cases hd)
  simpa using h

/-- Helper for the adapter claims: `dichotomyLoop` returns the result of
the first attempt whose status is not `DidNotReduce`. -/
theorem dichotomyLoop_first {A : Type} (f : Nat → A → Except String JobStatus) :
    ∀ (l : List A) (i k : Nat) (s : JobStatus) (hk : k < l.length),
      (∀ j (hj : j < k), f (i + j) (l.get ⟨j, by omega⟩) = .ok .didNotReduce) →
      f (i + k) (l.get ⟨k, hk⟩) = .ok s → s ≠ .didNotReduce →
      dichotomyLoop f i l = .ok s := by
  intro l
  induction l with
  | nil => intro i k s hk; simp at hk
  | cons a rest ih =>
    intro i k s hk hprev hk2 hs
    cases k with
    | zero =>
      simp only [List.get] at hk2
      rw [Nat.add_zero] at hk2
      unfold dichotomyLoop
      rw [hk2]
      cases s with
      | didNotReduce => exact absurd rfl hs
      | _ => rfl
    | succ k' =>
      have h0 : f i a = .ok .didNotReduce := by
        have := hprev 0 (Nat.succ_pos _)
        simpa using this
      unfold dichotomyLoop
      rw [h0]
      apply ih (i + 1) k' s (by simpa using hk)
      · intro j hj
        have := hprev (j + 1) (by omega)
        simpa [Nat.add_assoc, Nat.add_comm 1 j] using this
      · have : i + 1 + k' = i + (k' + 1) := by omega
        rw [this]
        exact hk2
      · exact hs

/-- Helper for the adapter claims: if every attempt yields `DidNotReduce`,
`dichotomyLoop` yields `DidNotReduce`. -/
theorem dichotomyLoop_all_dnr {A : Type} (f : Nat → A → Except String JobStatus) :
    ∀ (l : List A) (i : Nat),
      (∀ j (hj : j < l.length), f (i + j) (l.get ⟨j, hj⟩) = .ok .didNotReduce) →
      dichotomyLoop f i l = .ok .didNotReduce := by
  intro l
  induction l with
  | nil => intro i _; rfl
  | cons a rest ih =>
    intro i hall
    have h0 : f i a = .ok .didNotReduce := by simpa using hall 0 (Nat.succ_pos _)
    unfold dichotomyLoop
    rw [h0]
    apply ih (i + 1)
    intro j hj
    have := hall (j + 1) (by simpa using hj)
    simpa [Nat.add_assoc, Nat.add_comm 1 j] using this

/-- **C2** (counterexample): with `list_attempts` returning
`Some(parsed, [])`, every attempt vacuously "produces `DidNotReduce`", yet
the adapter returns `PassFailed`, not `DidNotReduce`, contradicting the
claim's unconditional "if all attempts produce DidNotReduce, reduce
returns DidNotReduce". -/
theorem c2_counterexample :
    dichotomyReduce (P := Unit) (A := Unit) (.ok (some ((), [])))
      (fun _ _ => .ok .didNotReduce) = .ok (.passFailed "No option to choose from") ∧
    JobStatus.passFailed "No option to choose from" ≠ .didNotReduce :=
  ⟨rfl, by simp⟩

/-- **C2** (amended): if `list_attempts` returns `None`, `reduce` returns
`PassFailed`; if it returns a **nonempty** attempt sequence, `reduce`
returns the result of the first `attempt_reduce` call that is not
`DidNotReduce`, and `DidNotReduce` when all attempts produce
`DidNotReduce`.  (The empty sequence returns `PassFailed` — see the
counterexample and claim C10.) -/
theorem c2_amended_first_non_dnr {P A : Type} (p : P) (attempts : List A)
    (f : Nat → A → Except String JobStatus)
    (hne : attempts ≠ []) :
    (∃ d, dichotomyReduce (P := P) (A := A) (.ok none) f = .ok (.passFailed d)) ∧
    (∀ k s (hk : k < attempts.length),
      (∀ j (hj : j < k), f j (attempts.get ⟨j, by omega⟩) = .ok .didNotReduce) →
      f k (attempts.get ⟨k, hk⟩) = .ok s → s ≠ .didNotReduce →
      dichotomyReduce (.ok (some (p, attempts))) f = .ok s) ∧
    ((∀ j (hj : j < attempts.length),
        f j (attempts.get ⟨j, hj⟩) = .ok .didNotReduce) →
      dichotomyReduce (.ok (some (p, attempts))) f = .ok .didNotReduce) := by
  have hemp : attempts.isEmpty = false := by
    cases attempts with
    | nil => exact absurd rfl hne
    | cons a rest => rfl
  have hred : dichotomyReduce (.ok (some (p, attempts))) f = dichotomyLoop f 0 attempts := by
    simp [dichotomyReduce, hemp]
  refine ⟨⟨_, rfl⟩, ?_, ?_⟩
  · intro k s hk hprev hks hs
    rw [hred]
    apply dichotomyLoop_first f attempts 0 k s hk
    · intro j hj
      simpa using hprev j hj
    · simpa using hks
    · exact hs
  · intro hall
    rw [hred]
    apply dichotomyLoop_all_dnr f attempts 0
    intro j hj
    simpa using hall j hj

theorem c2_witness :
    (∃ d, dichotomyReduce (P := Unit) (A := Nat) (.ok none)
      (fun _ a => .ok (if a = 1 then .reduced "r" else .didNotReduce)) =
        .ok (.passFailed d)) ∧
    dichotomyReduce (.ok (some ((), [0, 1, 2])))
      (fun _ a => .ok (if a = 1 then .reduced "r" else .didNotReduce)) =
      .ok (.reduced "r") := by
  have h := c2_amended_first_non_dnr (P := Unit) (A := Nat) () [0, 1, 2]
    (fun _ a => .ok (if a = 1 then .reduced "r" else .didNotReduce))
    (by simp)
  refine ⟨h.1, ?_⟩
  apply h.2.1 1 (.reduced "r") (by simp)
  · intro j hj
    interval_cases j <;> simp
  · simp
  · simp

/-- **C10**: when `list_attempts` returns `Some` with an empty attempt
sequence, the adapter's `reduce` returns `PassFailed`, and the result does
not depend on `attempt_reduce` (it is never called). -/
theorem c10_empty_attempts_pass_failed {P A : Type} (p : P)
    (f g : Nat → A → Except String JobStatus) :
    dichotomyReduce (.ok (some (p, ([] : List A)))) f =
      .ok (.passFailed "No option to choose from") ∧
    dichotomyReduce (.ok (some (p, ([] : List A)))) f =
      dichotomyReduce (.ok (some (p, ([] : List A)))) g :=
  ⟨rfl, rfl⟩

/-- **C8**: handling a `PassFailed` result leaves the success rate of every
file unchanged; a `Reduced` result applies `record_success` and a
`DidNotReduce` result applies `record_fail`, in each case to the job's
file only (every other file keeps its rate). -/
theorem c8_handle_result_frame {P : Type} [DecidableEq P]
    (files : P → Option Nat) (p q : P) (d : String) (r : Nat)
    (hp : files p = some r) (hr : r ≤ 255) (hq : q ≠ p) :
    handleResultFiles p (.passFailed d) files = some files ∧
    handleResultFiles p (.reduced d) files =
      some (Function.update files p (some ((r * 9 + 255) / 10))) ∧
    handleResultFiles p .didNotReduce files =
      some (Function.update files p (some (r * 9 / 10))) ∧
    Function.update files p (some ((r * 9 + 255) / 10)) q = files q ∧
    Function.update files p (some (r * 9 / 10)) q = files q ∧
    Function.update files p (some ((r * 9 + 255) / 10)) p =
      some ((r * 9 + 255) / 10) ∧
    Function.update files p (some (r * 9 / 10)) p = some (r * 9 / 10) := by
  refine ⟨rfl, ?_, ?_, ?_, ?_, ?_, ?_⟩
  · simp only [handleResultFiles]
    rw [hp]
    simp [recordSuccess_eq hr]
  · simp only [handleResultFiles]
    rw [hp]
    simp [recordFail_eq hr]
  · exact Function.update_noteq hq _ _
  · exact Function.update_noteq hq _ _
  · exact Function.update_same _ _ _
  · exact Function.update_same _ _ _

theorem c8_witness :
    handleResultFiles (P := Nat) 0 (.passFailed "x")
        (fun n => if n = 0 then some 127 else some 40) =
      some (fun n => if n = 0 then some 127 else some 40) ∧
    Function.update (fun n : Nat => if n = 0 then some 127 else some 40) 0
        (some ((127 * 9 + 255) / 10)) 1 = some 40 := by
  have h := c8_handle_result_frame (P := Nat)
    (fun n => if n = 0 then some 127 else some 40) 0 1 "x" 127
    (by simp) (by omega) (by simp)
  exact ⟨h.1, by simpa using h.2.2.2.1⟩

/-- **C9**: the initial success rate is 127; for every rate in `[0, 255]`,
`record_success` maps `r` to `(9r + 255) / 10` and `record_fail` maps `r`
to `9r / 10`, both staying in `[0, 255]`, so the `u8::try_from` conversion
never fails; consequently any sequence of events keeps the rate in
`[0, 255]` and never panics. -/
theorem c9_ema_bounds :
    fileInfoNew = 127 ∧
    (∀ r, r ≤ 255 →
      recordSuccess r = some ((r * 9 + 255) / 10) ∧ (r * 9 + 255) / 10 ≤ 255) ∧
    (∀ r, r ≤ 255 → recordFail r = some (r * 9 / 10) ∧ r * 9 / 10 ≤ 255) ∧
    (∀ evs r, r ≤ 255 → ∃ v, applyEvents evs r = some v ∧ v ≤ 255) := by
  refine ⟨rfl, ?_, ?_, ?_⟩
  · intro r hr
    exact ⟨recordSuccess_eq hr, by omega⟩
  · intro r hr
    exact ⟨recordFail_eq hr, by omega⟩
  · intro evs
    induction evs with
    | nil => intro r hr; exact ⟨r, rfl, hr⟩
    | cons ev rest ih =>
      intro r hr
      cases ev with
      | success =>
        obtain ⟨v, hv, hvb⟩ := ih ((r * 9 + 255) / 10) (by omega)
        refine ⟨v, ?_, hvb⟩
        simp only [applyEvents]
        rw [recordSuccess_eq hr]
        simpa using hv
      | fail =>
        obtain ⟨v, hv, hvb⟩ := ih (r * 9 / 10) (by omega)
        refine ⟨v, ?_, hvb⟩
        simp only [applyEvents]
        rw [recordFail_eq hr]
        simpa using hv

theorem c9_witness :
    ∃ v, applyEvents [.success, .fail, .success] 127 = some v ∧ v ≤ 255 :=
  c9_ema_bounds.2.2.2 [.success, .fail, .success] 127 (by omega)

/-- Helper for the `RemoveLines` refinement: the push-front loop equals the
reversed push-order loop of the specification, prefixed to the
accumulator. -/
theorem rlLoop_eq_spec (rng : Rng) (numLines startAt len : Nat)
    (acc : List NatRange) :
    rlLoop rng numLines startAt len acc =
      (rlSpecLoop rng numLines startAt len).reverse ++ acc := by
  induction rng, numLines, startAt, len, acc using rlLoop.induct with
  | case1 rng numLines startAt len acc hlt d1 rng1 d2 rng2 ih =>
    rw [rlLoop, rlSpecLoop]
    simp only [if_pos hlt]
    rw [ih]
    simp
  | case2 rng numLines startAt len acc hlt =>
    rw [rlLoop, rlSpecLoop]
    simp only [if_neg hlt]
    simp

/-- **C6**: `RemoveLines::list_attempts` returns exactly the attempt
sequence of the spec's algorithm (pushed ranges, largest first, with the
whole-file range prepended), and returns `None` exactly when the file is
not valid text or has zero lines. -/
theorem c6_remove_lines_list_attempts (decoded : Option (List Char)) (rng : Rng) :
    removeLinesListAttempts decoded rng = removeLinesSpecAttempts decoded rng ∧
    (removeLinesListAttempts decoded rng = none ↔
      decoded = none ∨ ∃ s, decoded = some s ∧ (rustLines s).length = 0) := by
  cases decoded with
  | none => exact ⟨rfl, by simp [removeLinesListAttempts]⟩
  | some s =>
    by_cases hz : (rustLines s).length = 0
    · refine ⟨?_, ?_⟩
      · simp [removeLinesListAttempts, removeLinesSpecAttempts, hz]
      · simp only [removeLinesListAttempts, if_pos hz]
        simp only [true_iff]
        exact Or.inr ⟨s, rfl, hz⟩
    · refine ⟨?_, ?_⟩
      · simp only [removeLinesListAttempts, removeLinesSpecAttempts, if_neg hz]
        rw [rlLoop_eq_spec]
        simp
      · simp only [removeLinesListAttempts, if_neg hz]
        constructor
        · intro h
          exact Option.noConfusion h
        · rintro (h | ⟨s1, hs1, hl1⟩)
          · exact Option.noConfusion h
          · cases Option.some.inj hs1
            exact absurd hl1 hz

theorem c6_witness :
    removeLinesListAttempts (some ['a', '\n', 'b', '\n', 'c', '\n']) ⟨fun _ => 0, 0⟩ =
      removeLinesSpecAttempts (some ['a', '\n', 'b', '\n', 'c', '\n']) ⟨fun _ => 0, 0⟩ :=
  (c6_remove_lines_list_attempts (some ['a', '\n', 'b', '\n', 'c', '\n']) ⟨fun _ => 0, 0⟩).1

/-- Helper for C7: evaluating the write-back fold of
`RemoveLines::attempt_reduce` to a filter of the 0-indexed lines. -/
theorem removeLinesNewData_foldl (a : NatRange) :
    ∀ (l : List (Nat × List Char)) (acc : List Char),
      l.foldl (fun acc p =>
          if a.start ≤ p.1 ∧ p.1 < a.stop then acc else acc ++ p.2 ++ ['\n']) acc =
        acc ++ ((l.filter fun p =>
            decide (p.1 < a.start) || decide (a.stop ≤ p.1)).map
          (fun p => p.2 ++ ['\n'])).flatten := by
  intro l
  induction l with
  | nil => intro acc; simp
  | cons p rest ih =>
    intro acc
    by_cases h : a.start ≤ p.1 ∧ p.1 < a.stop
    · have hfilt : (decide (p.1 < a.start) || decide (a.stop ≤ p.1)) = false := by
        simp only [Bool.or_eq_false_iff, decide_eq_false_iff_not]
        omega
      simp only [List.foldl_cons, if_pos h, List.filter_cons, hfilt]
      exact ih acc
    · have hfilt : (decide (p.1 < a.start) || decide (a.stop ≤ p.1)) = true := by
        simp only [Bool.or_eq_true, decide_eq_true_eq]
        omega
      simp only [List.foldl_cons, if_neg h, List.filter_cons, hfilt]
      rw [ih]
      simp

/-- **C7** (counterexample): on the file `"a\nb"` with attempt `0..1`, the
code removes the first line (`enumerate` is 0-based and the attempt ranges
are 0-indexed), producing `"b\n"`; under the claim's 1-indexed reading the
range `0..1` names no line and the file would stay `"a\nb\n"`. -/
theorem c7_counterexample :
    removeLinesNewData ['a', '\n', 'b'] ⟨0, 1⟩ = ['b', '\n'] ∧
    removeLinesSpecNewData1Indexed ['a', '\n', 'b'] ⟨0, 1⟩ = ['a', '\n', 'b', '\n'] ∧
    removeLinesNewData ['a', '\n', 'b'] ⟨0, 1⟩ ≠
      removeLinesSpecNewData1Indexed ['a', '\n', 'b'] ⟨0, 1⟩ :=
  ⟨by decide, by decide, by decide⟩

/-- **C7** (amended): `RemoveLines::attempt_reduce` writes a new file that
omits exactly the lines of the attempt range, the lines being **0-indexed**
logical lines separated by `'\n'`, keeping all other lines in order (each
with a `'\n'` appended), calls the test once, and maps `Interesting` to
`Reduced`, `NotInteresting` to `DidNotReduce` and `Interrupted` to
`Interrupted`. -/
theorem c7_amended_attempt_reduce (fileContents : List Char) (attempt : NatRange) :
    (∀ t, (removeLinesAttemptReduce fileContents attempt t).1 =
      (((rustLines fileContents).enum.filter fun p =>
          decide (p.1 < attempt.start) || decide (attempt.stop ≤ p.1)).map
        (fun p => p.2 ++ ['\n'])).flatten) ∧
    (∃ d, (removeLinesAttemptReduce fileContents attempt .interesting).2 = .reduced d) ∧
    (removeLinesAttemptReduce fileContents attempt .notInteresting).2 = .didNotReduce ∧
    (removeLinesAttemptReduce fileContents attempt .interrupted).2 = .interrupted := by
  refine ⟨?_, ⟨_, rfl⟩, rfl, rfl⟩
  intro t
  show removeLinesNewData fileContents attempt = _
  unfold removeLinesNewData
  rw [removeLinesNewData_foldl]
  simp

/-- Any range removes at most all lines of the file. -/
theorem linesRemoved_le (numLines : Nat) (r : NatRange) :
    linesRemoved numLines r ≤ numLines := by
  simp only [linesRemoved]
  omega

/-- One loop step of `RemoveLines::list_attempts` never shrinks the
amount-removed metric: shifting the start down and growing the length can
only remove at least as many present lines. -/
theorem linesRemoved_step (numLines startAt len d1 d2 : Nat) :
    linesRemoved numLines ⟨startAt, startAt + len⟩ ≤
      linesRemoved numLines ⟨startAt - d1, startAt - d1 + (len + d2)⟩ := by
  simp only [linesRemoved]
  omega

/-- Helper for C3 (`RemoveLines` half): the loop accumulator keeps the
amount-removed metric non-increasing front to back. -/
theorem rlLoop_chain (rng : Rng) (numLines startAt len : Nat)
    (acc : List NatRange)
    (hc : List.Chain'
      (fun a b => linesRemoved numLines b ≤ linesRemoved numLines a)
      (⟨startAt, startAt + len⟩ :: acc)) :
    List.Chain' (fun a b => linesRemoved numLines b ≤ linesRemoved numLines a)
      (rlLoop rng numLines startAt len acc) := by
  induction rng, numLines, startAt, len, acc using rlLoop.induct with
  | case1 rng numLines startAt len acc hlt d1 rng1 d2 rng2 ih =>
    rw [rlLoop]
    simp only [if_pos hlt]
    apply ih
    exact List.Chain'.cons (linesRemoved_step numLines startAt len d1 d2) hc
  | case2 rng numLines startAt len acc hlt =>
    rw [rlLoop]
    simp only [if_neg hlt]
    exact hc.tail

/-- Helper for C3 (`TreeSitterReplace` half): what the inner removal loop
guarantees on success — the byte counter decreases by exactly what was
added to `removed_this_round`, which only grows; a round that removed
nothing left the attempt and the counter untouched; a round that removed
something left a positive counter. -/
theorem tsInner_spec (rng : Rng) (attempt : List INode)
    (aimAt cur removedRound : Nat) :
    ∀ a2 cur2 rr2 rng2,
      tsInner rng attempt aimAt cur removedRound = .ok (some (a2, cur2, rr2, rng2)) →
      cur2 + rr2 = cur + removedRound ∧ removedRound ≤ rr2 ∧
      (rr2 = removedRound → a2 = attempt ∧ cur2 = cur) ∧
      (removedRound < rr2 → 0 < cur2) := by
  induction rng, attempt, aimAt, cur, removedRound using tsInner.induct with
  | case1 rng attempt aimAt cur removedRound h0 removed h1 =>
    intro a2 cur2 rr2 rng2 h
    rw [tsInner] at h
    simp only [dif_pos h0, dif_pos h1] at h
    exact Except.noConfusion h
  | case2 rng attempt aimAt cur removedRound h0 removed h1 h2 =>
    intro a2 cur2 rr2 rng2 h
    rw [tsInner] at h
    simp only [dif_pos h0, dif_neg h1, dif_pos h2] at h
    exact Option.noConfusion (Except.ok.inj h)
  | case3 rng attempt aimAt cur removedRound h0 removed h1 h2 ih =>
    intro a2 cur2 rr2 rng2 h
    rw [tsInner] at h
    simp only [dif_pos h0, dif_neg h1, dif_neg h2] at h
    obtain ⟨he, hle, hzero, hpos⟩ := ih a2 cur2 rr2 rng2 h
    refine ⟨by omega, by omega, ?_, ?_⟩
    · intro hrr
      exfalso
      omega
    · intro hrr
      rcases Nat.lt_or_ge (removedRound + removed) rr2 with hlt | hge
      · exact hpos hlt
      · have : rr2 = removedRound + removed := by omega
        obtain ⟨_, hcur⟩ := hzero this
        omega
  | case4 rng attempt aimAt cur removedRound h0 =>
    intro a2 cur2 rr2 rng2 h
    rw [tsInner] at h
    simp only [dif_neg h0, Except.ok.injEq, Option.some.injEq, Prod.mk.injEq] at h
    obtain ⟨ha, hc, hr, _⟩ := h
    subst ha hc hr
    exact ⟨rfl, Nat.le_refl _, fun _ => ⟨rfl, rfl⟩, fun hlt => absurd rfl (Nat.ne_of_lt hlt)⟩

/-- Helper for C3 (`TreeSitterReplace` half): the outer dichotomy loop
keeps the attempt deque strictly decreasing in covered bytes, given that
the last attempt's byte count matches the `cur_bytes` cache. -/
theorem tsOuter_chain (rng : Rng) (attempts : List (List INode)) (aimAt cur : Nat) :
    ∀ res, tsOuter rng attempts aimAt cur = .ok res →
      attempts.Chain' (fun a b => countBytes b < countBytes a) →
      (∀ last, attempts.getLast? = some last → countBytes last = cur) →
      res.Chain' (fun a b => countBytes b < countBytes a) := by
  induction rng, attempts, aimAt, cur using tsOuter.induct with
  | case1 rng attempts aimAt cur hlast =>
    intro res h _ _
    rw [tsOuter, hlast] at h
    simp at h
  | case2 rng attempts aimAt cur attempt hlast hhalf =>
    intro res h hc _
    rw [tsOuter, hlast] at h
    simp only [dif_pos hhalf, Except.ok.injEq] at h
    subst h
    exact hc
  | case3 rng attempts aimAt cur attempt hlast hhalf e herr =>
    intro res h _ _
    rw [tsOuter, hlast] at h
    simp only [dif_neg hhalf, herr] at h
    exact Except.noConfusion h
  | case4 rng attempts aimAt cur attempt hlast hhalf hinner =>
    intro res h hc _
    rw [tsOuter, hlast] at h
    simp only [dif_neg hhalf, hinner, Except.ok.injEq] at h
    subst h
    exact hc
  | case5 rng attempts aimAt cur attempt hlast hhalf attempt2 rr2 rng2 hinner ih =>
    intro res h hc hlastc
    rw [tsOuter, hlast] at h
    simp only [dif_neg hhalf, hinner] at h
    simp only [eq_self_iff_true, ite_true] at h
    obtain ⟨hsum, hle, hzero, hpos⟩ :=
      tsInner_spec rng attempt (aimAt / 2) cur 0 attempt2 (countBytes attempt2)
        rr2 rng2 hinner
    have hlc : countBytes attempt = cur := hlastc attempt hlast
    by_cases hpush : 0 < rr2 ∧ 0 < countBytes attempt2
    · rw [if_pos hpush] at h
      rw [dif_pos hpush] at ih
      apply ih res h
      · apply List.Chain'.append hc (List.chain'_singleton _)
        intro x hx y hy
        simp only [List.head?_cons, Option.mem_def, Option.some.injEq] at hy
        subst hy
        rw [hlast] at hx
        simp only [Option.mem_def, Option.some.injEq] at hx
        subst hx
        omega
      · intro last hl
        rw [List.getLast?_concat] at hl
        cases Option.some.inj hl
        rfl
    · rw [if_neg hpush] at h
      rw [dif_neg hpush] at ih
      have hrr : rr2 = 0 := by
        rcases Nat.eq_zero_or_pos rr2 with hz | hp
        · exact hz
        · exact absurd ⟨hp, hpos hp⟩ hpush
      obtain ⟨ha, hcur⟩ := hzero hrr
      apply ih res h hc
      intro last hl
      rw [hcur]
      exact hlastc last hl
  | case6 rng attempts aimAt cur attempt hlast hhalf attempt2 cur2 rr2 rng2 hinner hcache =>
    intro res h _ _
    rw [tsOuter, hlast] at h
    simp only [dif_neg hhalf, hinner] at h
    rw [if_neg hcache] at h
    simp at h

/-- Helper for C3: attempt selection returns a strictly decreasing deque of
covered byte counts. -/
theorem tsSelect_chain (rng : Rng) (interesting : List INode)
    (als : List (List INode))
    (h : tsSelect rng interesting = .ok (some als)) :
    als.Chain' (fun a b => countBytes b < countBytes a) := by
  unfold tsSelect at h
  by_cases hz : countBytes interesting = 0
  · rw [if_pos hz] at h
    simp at h
  · rw [if_neg hz] at h
    cases houter : tsOuter rng [interesting] (countBytes interesting) (countBytes interesting) with
    | error e => rw [houter] at h; simp [Except.map] at h
    | ok res =>
      rw [houter] at h
      simp only [Except.map, Except.ok.injEq, Option.some.injEq] at h
      subst h
      apply tsOuter_chain rng [interesting] (countBytes interesting)
        (countBytes interesting) res houter (List.chain'_singleton _)
      intro last hl
      simp only [List.getLast?_singleton, Option.some.injEq] at hl
      subst hl
      rfl

/-- The byte metric of a converted attempt is the byte count of its node
list. -/
theorem attemptBytes_intoRanges (l : List INode) :
    attemptBytes (intoRanges l) = countBytes l := by
  simp only [attemptBytes, intoRanges, countBytes, List.map_map]
  rfl

/-- **C3**: for every `RemoveLines` and `TreeSitterReplace` invocation (the
repository's two `DichotomyPass` implementations), for every file contents
and every job seed, the attempts handed to `attempt_reduce` are in
non-increasing order of their amount-removed metric: lines actually present
in the file for `RemoveLines`, covered bytes for `TreeSitterReplace`. -/
theorem c3_dichotomy_ordering :
    (∀ (decoded : Option (List Char)) (rng : Rng) (s : List Char)
        (attempts : List NatRange),
      removeLinesListAttempts decoded rng = some (s, attempts) →
      attempts.Chain' (fun a b =>
        linesRemoved (rustLines s).length b ≤ linesRemoved (rustLines s).length a)) ∧
    (∀ (input : List Nat) (parseResult : Option STree)
        (matcher : List Nat → STree → Option (List Nat)) (tryAll : Bool)
        (rng : Rng) (parsed : List Nat)
        (attempts : List (List ((Nat × Nat) × List Nat))),
      tsListAttempts input parseResult matcher tryAll rng = .ok (some (parsed, attempts)) →
      attempts.Chain' (fun a b => attemptBytes b ≤ attemptBytes a)) := by
  constructor
  · intro decoded rng s attempts h
    cases decoded with
    | none => simp [removeLinesListAttempts] at h
    | some fc =>
      by_cases hz : (rustLines fc).length = 0
      · simp [removeLinesListAttempts, hz] at h
      · simp only [removeLinesListAttempts, if_neg hz, Option.some.injEq,
          Prod.mk.injEq] at h
        obtain ⟨hfc, hatt⟩ := h
        subst hfc
        subst hatt
        rw [List.chain'_cons']
        constructor
        · intro b hb
          rw [show linesRemoved (rustLines fc).length ⟨0, (rustLines fc).length⟩ =
              (rustLines fc).length from by simp only [linesRemoved]; omega]
          exact linesRemoved_le _ _
        · exact rlLoop_chain _ _ _ _ _ (List.chain'_singleton _)
  · intro input parseResult matcher tryAll rng parsed attempts h
    cases parseResult with
    | none => simp [tsListAttempts] at h
    | some tree =>
      simp only [tsListAttempts] at h
      cases hsel : tsSelect rng (collectChildren matcher tryAll input tree.children []) with
      | error e => rw [hsel] at h; simp at h
      | ok r =>
        rw [hsel] at h
        cases r with
        | none => simp at h
        | some als =>
          simp only [Except.ok.injEq, Option.some.injEq, Prod.mk.injEq] at h
          obtain ⟨hin, hatt⟩ := h
          subst hatt
          have hchain := tsSelect_chain rng _ als hsel
          rw [List.chain'_map]
          apply hchain.imp
          intro a b hab
          rw [attemptBytes_intoRanges, attemptBytes_intoRanges]
          omega

theorem c3_witness :
    (([⟨0, 3⟩, ⟨0, 2⟩, ⟨0, 1⟩] : List NatRange).Chain' (fun a b =>
      linesRemoved (rustLines ['a', '\n', 'b', '\n', 'c', '\n']).length b ≤
        linesRemoved (rustLines ['a', '\n', 'b', '\n', 'c', '\n']).length a)) ∧
    (([[((0, 2), []), ((2, 4), [])], [((0, 2), [])]] :
        List (List ((Nat × Nat) × List Nat))).Chain'
      (fun a b => attemptBytes b ≤ attemptBytes a)) := by
  constructor
  · apply c3_dichotomy_ordering.1 (some ['a', '\n', 'b', '\n', 'c', '\n'])
      ⟨fun _ => 0, 0⟩
    simp [removeLinesListAttempts, rustLines, splitNl, stripCr, rlLoop,
      Rng.genRange, Rng.next]
  · apply c3_dichotomy_ordering.2 [65, 66, 67, 68]
      (some (STree.mk 0 4 [STree.mk 0 2 [], STree.mk 2 4 []]))
      (fun _ _ => some []) false ⟨fun _ => 0, 0⟩ [65, 66, 67, 68]
    simp [tsListAttempts, tsSelect, tsOuter, tsInner, tsRemoveStep, tryRemoveBack,
      tryRemoveBackRev, tryRemoveFront, collectChildren, collectNode, nodeBytes,
      windowsContains, isAsciiWhitespaceByte, countBytes, intoRanges, Rng.genRange,
      Rng.genBool, Rng.next, STree.children, STree.start, STree.stop, INode.start,
      INode.stop, INode.children, INode.replaceWith, Except.map]

/-- **C4**: while collecting candidates, a visited node is appended to the
current `InterestingNodeList` (with its replacement and its own nested
descendant list) exactly when the matcher returns a replacement AND either
`try_match_all_nodes` is set, or the node's source bytes are neither pure
ASCII whitespace nor a substring of the replacement; otherwise the walker
just recurses into the node's children, appending their entries to the
current list. -/
theorem c4_interesting_node_iff
    (matcher : List Nat → STree → Option (List Nat)) (tryAll : Bool)
    (input : List Nat) (t : STree) (acc : List INode) :
    collectNode matcher tryAll input t acc =
      if specInterestingNode matcher tryAll input t then
        acc ++ [INode.mk t.start t.stop ((matcher input t).getD [])
          (collectChildren matcher tryAll input t.children [])]
      else collectChildren matcher tryAll input t.children acc := by
  rw [collectNode]
  cases htry : tryAll with
  | false =>
    by_cases hws : (nodeBytes input t).all isAsciiWhitespaceByte
    · rw [if_pos (by simp [hws])]
      cases hm : matcher input t with
      | none => rw [if_neg (by simp [specInterestingNode, hm])]
      | some rw0 => rw [if_neg (by simp [specInterestingNode, hm, hws])]
    · rw [if_neg (by simp [hws])]
      cases hm : matcher input t with
      | none => simp [specInterestingNode, hm]
      | some rw0 =>
        by_cases hwin : windowsContains rw0 (nodeBytes input t)
        · simp [specInterestingNode, hm, hws, hwin]
        · simp [specInterestingNode, hm, hws, hwin]
  | true =>
    rw [if_neg (by simp)]
    cases hm : matcher input t with
    | none => simp [specInterestingNode, hm]
    | some rw0 => simp [specInterestingNode, hm]

theorem sortedFrom_mono {lo' lo : Nat} (h : lo' ≤ lo) :
    ∀ {l : List INode}, sortedFrom lo l = true → sortedFrom lo' l = true := by
  intro l hl
  cases l with
  | nil => rfl
  | cons n rest =>
    simp only [sortedFrom, Bool.and_eq_true, decide_eq_true_eq] at hl ⊢
    exact ⟨⟨by omega, hl.1.2⟩, hl.2⟩

theorem sortedDownFrom_mono {hi hi' : Nat} (h : hi ≤ hi') :
    ∀ {l : List INode}, sortedDownFrom hi l = true → sortedDownFrom hi' l = true := by
  intro l hl
  cases l with
  | nil => rfl
  | cons n rest =>
    simp only [sortedDownFrom, Bool.and_eq_true, decide_eq_true_eq] at hl ⊢
    exact ⟨⟨by omega, hl.1.2⟩, hl.2⟩

theorem allUpTo_mono {hi hi' : Nat} (h : hi ≤ hi') {l : List INode} :
    allUpTo hi l = true → allUpTo hi' l = true := by
  simp only [allUpTo, List.all_eq_true, decide_eq_true_eq]
  intro ha n hn
  exact le_trans (ha n hn) h

theorem allDownTo_mono {lo' lo : Nat} (h : lo' ≤ lo) {l : List INode} :
    allDownTo lo l = true → allDownTo lo' l = true := by
  simp only [allDownTo, List.all_eq_true, decide_eq_true_eq]
  intro ha n hn
  exact le_trans h (ha n hn)

theorem sortedFrom_append {m : Nat} :
    ∀ {xs : List INode} {lo : Nat} {ys : List INode},
      sortedFrom lo xs = true → allUpTo m xs = true → sortedFrom m ys = true →
      lo ≤ m → sortedFrom lo (xs ++ ys) = true := by
  intro xs
  induction xs with
  | nil => intro lo ys _ _ hys hlo; exact sortedFrom_mono hlo hys
  | cons n rest ih =>
    intro lo ys hx hup hys hlo
    simp only [allUpTo, List.all_cons, Bool.and_eq_true, decide_eq_true_eq] at hup
    simp only [List.cons_append, sortedFrom, Bool.and_eq_true, decide_eq_true_eq] at hx ⊢
    exact ⟨hx.1, ih hx.2 (by simpa [allUpTo] using hup.2) hys hup.1⟩

theorem sortedDownFrom_append {m : Nat} :
    ∀ {xs : List INode} {hi : Nat} {ys : List INode},
      sortedDownFrom hi xs = true → allDownTo m xs = true →
      sortedDownFrom m ys = true → m ≤ hi →
      sortedDownFrom hi (xs ++ ys) = true := by
  intro xs
  induction xs with
  | nil => intro hi ys _ _ hys hm; exact sortedDownFrom_mono hm hys
  | cons n rest ih =>
    intro hi ys hx hdown hys hm
    simp only [allDownTo, List.all_cons, Bool.and_eq_true, decide_eq_true_eq] at hdown
    simp only [List.cons_append, sortedDownFrom, Bool.and_eq_true, decide_eq_true_eq] at hx ⊢
    exact ⟨hx.1, ih hx.2 (by simpa [allDownTo] using hdown.2) hys hdown.1⟩

theorem sortedFrom_allDownTo : ∀ {l : List INode} {lo : Nat},
    sortedFrom lo l = true → allDownTo lo l = true := by
  intro l
  induction l with
  | nil => intro lo _; rfl
  | cons n rest ih =>
    intro lo hl
    simp only [sortedFrom, Bool.and_eq_true, decide_eq_true_eq] at hl
    simp only [allDownTo, List.all_cons, Bool.and_eq_true, decide_eq_true_eq]
    exact ⟨hl.1.1, by
      simpa [allDownTo] using allDownTo_mono (by omega) (ih hl.2)⟩

theorem sortedDownFrom_allUpTo : ∀ {l : List INode} {hi : Nat},
    sortedDownFrom hi l = true → allUpTo hi l = true := by
  intro l
  induction l with
  | nil => intro hi _; rfl
  | cons n rest ih =>
    intro hi hl
    simp only [sortedDownFrom, Bool.and_eq_true, decide_eq_true_eq] at hl
    simp only [allUpTo, List.all_cons, Bool.and_eq_true, decide_eq_true_eq]
    exact ⟨hl.1.1, by
      simpa [allUpTo] using allUpTo_mono (by omega) (ih hl.2)⟩

theorem allUpTo_reverse {hi : Nat} {l : List INode} :
    allUpTo hi l.reverse = allUpTo hi l := by
  simp [allUpTo, List.all_reverse]

theorem allDownTo_reverse {lo : Nat} {l : List INode} :
    allDownTo lo l.reverse = allDownTo lo l := by
  simp [allDownTo, List.all_reverse]

theorem sortedDown_of_sorted : ∀ {l : List INode} {lo hi : Nat},
    sortedFrom lo l = true → allUpTo hi l = true →
    sortedDownFrom hi l.reverse = true := by
  intro l
  induction l with
  | nil => intro lo hi _ _; rfl
  | cons n rest ih =>
    intro lo hi hs hup
    simp only [sortedFrom, Bool.and_eq_true, decide_eq_true_eq] at hs
    simp only [allUpTo, List.all_cons, Bool.and_eq_true, decide_eq_true_eq] at hup
    rw [List.reverse_cons]
    apply sortedDownFrom_append (m := n.stop)
    · exact ih hs.2 (by simpa [allUpTo] using hup.2)
    · rw [allDownTo_reverse]
      exact sortedFrom_allDownTo hs.2
    · simp only [sortedDownFrom, Bool.and_eq_true, decide_eq_true_eq]
      exact ⟨⟨Nat.le_refl _, hs.1.2⟩, trivial⟩
    · exact hup.1

theorem sorted_of_sortedDown : ∀ {l : List INode} {hi lo : Nat},
    sortedDownFrom hi l = true → allDownTo lo l = true →
    sortedFrom lo l.reverse = true := by
  intro l
  induction l with
  | nil => intro hi lo _ _; rfl
  | cons n rest ih =>
    intro hi lo hs hdown
    simp only [sortedDownFrom, Bool.and_eq_true, decide_eq_true_eq] at hs
    simp only [allDownTo, List.all_cons, Bool.and_eq_true, decide_eq_true_eq] at hdown
    rw [List.reverse_cons]
    apply sortedFrom_append (m := n.start)
    · exact ih hs.2 (by simpa [allDownTo] using hdown.2)
    · rw [allUpTo_reverse]
      exact sortedDownFrom_allUpTo hs.2
    · simp only [sortedFrom, Bool.and_eq_true, decide_eq_true_eq]
      exact ⟨⟨Nat.le_refl _, hs.1.2⟩, trivial⟩
    · exact hdown.1

theorem wfList_append : ∀ {a b : List INode},
    INode.wfList (a ++ b) = (INode.wfList a && INode.wfList b) := by
  intro a
  induction a with
  | nil => intro b; simp [INode.wfList]
  | cons n rest ih =>
    intro b
    simp only [List.cons_append, INode.wfList, List.append_eq, ih, Bool.and_assoc]

theorem wfList_reverse : ∀ {l : List INode},
    INode.wfList l.reverse = INode.wfList l := by
  intro l
  induction l with
  | nil => rfl
  | cons n rest ih =>
    rw [List.reverse_cons, wfList_append, ih]
    simp only [INode.wfList, Bool.and_true]
    rw [Bool.and_comm]

theorem allUpTo_maxStop : ∀ (l : List INode), allUpTo (maxStop l) l = true := by
  intro l
  induction l with
  | nil => rfl
  | cons n rest ih =>
    simp only [maxStop, List.foldr_cons, allUpTo, List.all_cons, Bool.and_eq_true,
      decide_eq_true_eq]
    constructor
    · exact Nat.le_max_left _ _
    · have := allUpTo_mono (Nat.le_max_right n.stop (maxStop rest)) ih
      simpa [allUpTo, maxStop] using this

theorem sortedFrom_of_all_ge {lo : Nat} {l : List INode}
    (hdown : allDownTo lo l = true) (hs : sortedFrom 0 l = true) :
    sortedFrom lo l = true := by
  cases l with
  | nil => rfl
  | cons n rest =>
    simp only [allDownTo, List.all_cons, Bool.and_eq_true, decide_eq_true_eq] at hdown
    simp only [sortedFrom, Bool.and_eq_true, decide_eq_true_eq] at hs ⊢
    exact ⟨⟨hdown.1, hs.1.2⟩, hs.2⟩

/-- Unpack the recursive well-formedness of the head node. -/
theorem INode.wf_unpack {n : INode} (h : INode.wf n = true) :
    n.start ≤ n.stop ∧ allDownTo n.start n.children = true ∧
    allUpTo n.stop n.children = true ∧ sortedFrom 0 n.children = true ∧
    INode.wfList n.children = true := by
  obtain ⟨s, e, r0, cs⟩ := n
  simp only [INode.wf, Bool.and_eq_true, decide_eq_true_eq, List.all_eq_true] at h
  obtain ⟨⟨⟨hse, hball⟩, hsort⟩, hwf⟩ := h
  refine ⟨hse, ?_, ?_, hsort, hwf⟩
  · simp only [INode.children, INode.start, allDownTo, List.all_eq_true, decide_eq_true_eq]
    intro c hc
    have := hball c hc
    simp only [Bool.and_eq_true, decide_eq_true_eq] at this
    exact this.1
  · simp only [INode.children, INode.stop, allUpTo, List.all_eq_true, decide_eq_true_eq]
    intro c hc
    have := hball c hc
    simp only [Bool.and_eq_true, decide_eq_true_eq] at this
    exact this.2

/-- Helper for C5: `try_remove_front` preserves recursive well-formedness,
sortedness above any lower bound, and any upper bound on the ranges. -/
theorem tryRemoveFront_preserves : ∀ (l : List INode) (sz : Nat),
    INode.wfList l = true →
    ∀ lo hi, sortedFrom lo l = true → allUpTo hi l = true →
      INode.wfList (tryRemoveFront l sz).2 = true ∧
      sortedFrom lo (tryRemoveFront l sz).2 = true ∧
      allUpTo hi (tryRemoveFront l sz).2 = true := by
  intro l sz
  induction l, sz using tryRemoveFront.induct with
  | case1 sz =>
    intro _ lo hi _ _
    rw [tryRemoveFront]
    exact ⟨rfl, rfl, rfl⟩
  | case2 n rest sz hle ih =>
    intro hwf lo hi hs hup
    rw [tryRemoveFront]
    simp only [if_pos hle]
    simp only [INode.wfList, Bool.and_eq_true] at hwf
    simp only [sortedFrom, Bool.and_eq_true, decide_eq_true_eq] at hs
    simp only [allUpTo, List.all_cons, Bool.and_eq_true, decide_eq_true_eq] at hup
    exact ih hwf.2 lo hi (sortedFrom_mono (by omega) hs.2)
      (by simpa [allUpTo] using hup.2)
  | case3 n rest sz hgt ih =>
    intro hwf lo hi hs hup
    rw [tryRemoveFront]
    simp only [if_neg hgt]
    simp only [INode.wfList, Bool.and_eq_true] at hwf
    simp only [sortedFrom, Bool.and_eq_true, decide_eq_true_eq] at hs
    simp only [allUpTo, List.all_cons, Bool.and_eq_true, decide_eq_true_eq] at hup
    obtain ⟨hse, hdown, hupcs, hsort0, hwfcs⟩ := INode.wf_unpack hwf.1
    obtain ⟨hw2, hs2, hu2⟩ := ih hwfcs n.start n.stop
      (sortedFrom_of_all_ge hdown hsort0) hupcs
    refine ⟨?_, ?_, ?_⟩
    · rw [wfList_append]
      simp [hw2, hwf.2]
    · apply sortedFrom_append (m := n.stop) (sortedFrom_mono hs.1.1 hs2) hu2 hs.2
      omega
    · simp only [allUpTo, List.all_append, Bool.and_eq_true]
      constructor
      · simpa [allUpTo] using allUpTo_mono hup.1 hu2
      · simpa [allUpTo] using hup.2

/-- Helper for C5: the reversed-representation back removal preserves
well-formedness, descending sortedness below any upper bound, and any
lower bound on the ranges. -/
theorem tryRemoveBackRev_preserves : ∀ (l : List INode) (sz : Nat),
    INode.wfList l = true →
    ∀ lo hi, sortedDownFrom hi l = true → allDownTo lo l = true →
      INode.wfList (tryRemoveBackRev l sz).2 = true ∧
      sortedDownFrom hi (tryRemoveBackRev l sz).2 = true ∧
      allDownTo lo (tryRemoveBackRev l sz).2 = true := by
  intro l sz
  induction l, sz using tryRemoveBackRev.induct with
  | case1 sz =>
    intro _ lo hi _ _
    rw [tryRemoveBackRev]
    exact ⟨rfl, rfl, rfl⟩
  | case2 n rest sz hle ih =>
    intro hwf lo hi hs hdown
    rw [tryRemoveBackRev]
    simp only [if_pos hle]
    simp only [INode.wfList, Bool.and_eq_true] at hwf
    simp only [sortedDownFrom, Bool.and_eq_true, decide_eq_true_eq] at hs
    simp only [allDownTo, List.all_cons, Bool.and_eq_true, decide_eq_true_eq] at hdown
    exact ih hwf.2 lo hi (sortedDownFrom_mono (by omega) hs.2)
      (by simpa [allDownTo] using hdown.2)
  | case3 n rest sz hgt ih =>
    intro hwf lo hi hs hdown
    rw [tryRemoveBackRev]
    simp only [if_neg hgt]
    simp only [INode.wfList, Bool.and_eq_true] at hwf
    simp only [sortedDownFrom, Bool.and_eq_true, decide_eq_true_eq] at hs
    simp only [allDownTo, List.all_cons, Bool.and_eq_true, decide_eq_true_eq] at hdown
    obtain ⟨hse, hdowncs, hupcs, hsort0, hwfcs⟩ := INode.wf_unpack hwf.1
    obtain ⟨hw2, hs2, hd2⟩ := ih (by rw [wfList_reverse]; exact hwfcs) n.start n.stop
      (sortedDown_of_sorted (sortedFrom_of_all_ge hdowncs hsort0) hupcs)
      (by rw [allDownTo_reverse]; exact hdowncs)
    refine ⟨?_, ?_, ?_⟩
    · rw [wfList_append]
      simp [hw2, hwf.2]
    · apply sortedDownFrom_append (m := n.start)
        (sortedDownFrom_mono hs.1.1 hs2) hd2 hs.2
      omega
    · simp only [allDownTo, List.all_append, Bool.and_eq_true]
      constructor
      · simpa [allDownTo] using allDownTo_mono hdown.1 hd2
      · simpa [allDownTo] using hdown.2

/-- Helper for C5: `try_remove_back` preserves well-formedness, sortedness
and upper bounds, via the reversed representation. -/
theorem tryRemoveBack_preserves (l : List INode) (sz : Nat)
    (hwf : INode.wfList l = true) (lo hi : Nat)
    (hs : sortedFrom lo l = true) (hup : allUpTo hi l = true) :
    INode.wfList (tryRemoveBack l sz).2 = true ∧
    sortedFrom lo (tryRemoveBack l sz).2 = true ∧
    allUpTo hi (tryRemoveBack l sz).2 = true := by
  obtain ⟨hw2, hs2, hd2⟩ := tryRemoveBackRev_preserves l.reverse sz
    (by rw [wfList_reverse]; exact hwf) lo hi
    (sortedDown_of_sorted hs hup)
    (by rw [allDownTo_reverse]; exact sortedFrom_allDownTo hs)
  simp only [tryRemoveBack]
  refine ⟨?_, ?_, ?_⟩
  · rw [wfList_reverse]
    exact hw2
  · exact sorted_of_sortedDown hs2 hd2
  · rw [allUpTo_reverse]
    exact sortedDownFrom_allUpTo hs2

/-- **C5**: for every recursively well-formed `InterestingNodeList` (every
nested list sorted and non-overlapping, each child's range within its
parent's range) and every requested removal size, the list remaining after
`try_remove_front` or `try_remove_back` is still recursively well-formed,
and in particular still sorted and non-overlapping. -/
theorem c5_try_remove_preserves_invariant (l : List INode) (sz : Nat)
    (hwf : listWF l = true) :
    listWF (tryRemoveFront l sz).2 = true ∧
    checkSorted (tryRemoveFront l sz).2 = true ∧
    listWF (tryRemoveBack l sz).2 = true ∧
    checkSorted (tryRemoveBack l sz).2 = true := by
  simp only [listWF, Bool.and_eq_true] at hwf
  obtain ⟨hfw, hfs, _⟩ := tryRemoveFront_preserves l sz hwf.2 0 (maxStop l)
    hwf.1 (allUpTo_maxStop l)
  obtain ⟨hbw, hbs, _⟩ := tryRemoveBack_preserves l sz hwf.2 0 (maxStop l)
    hwf.1 (allUpTo_maxStop l)
  exact ⟨by simp [listWF, hfs, hfw], by simpa [checkSorted] using hfs,
    by simp [listWF, hbs, hbw], by simpa [checkSorted] using hbs⟩

theorem c5_witness :
    listWF (tryRemoveFront
      [INode.mk 0 3 [] [], INode.mk 5 9 [] [INode.mk 6 8 [] []]] 2).2 = true ∧
    checkSorted (tryRemoveBack
      [INode.mk 0 3 [] [], INode.mk 5 9 [] [INode.mk 6 8 [] []]] 2).2 = true := by
  have h := c5_try_remove_preserves_invariant
    [INode.mk 0 3 [] [], INode.mk 5 9 [] [INode.mk 6 8 [] []]] 2
    (by simp [listWF, sortedFrom, INode.wfList, INode.wf, INode.start, INode.stop,
      INode.children])
  exact ⟨h.1, h.2.2.2⟩

end TreeSitterReduce
